import Mathlib

/-!
Shallow embedding of `combo/models/score_comb.py`: the score-combination
module (AOM/MOA bucket reductions, weighted average, majority vote),
together with theorems settling the specification claims about it.

Scores are modelled as exact rationals; a score matrix is a list of rows
(`List (List ℚ)`), mirroring the numpy array of shape
`(n_samples, n_estimators)`.  Randomness enters the Python code through
`sklearn.utils.shuffle`, `sample_without_replacement` and
`numpy.random.RandomState(seed).randint`; each of those calls receives the
caller-supplied integer `random_state` directly, so with a fixed integer
seed every call is a pure function of its arguments.  We therefore model
the random source as a structure of deterministic functions together with
a well-formedness predicate stating the guarantees the library functions
provide (a shuffle is a permutation, a without-replacement sample of size
`k` from `n` is `k` distinct indices below `n`, `randint lo hi` succeeds
exactly when `lo < hi` and then yields a value in `[lo, hi)`).
-/

namespace ScoreComb

/-- Operation mode of the shared AOM/MOA helper, mirroring the `mode`
strings `'AOM'` / `'MOA'` accepted by `_aom_moa_helper`. -/
inductive Mode where
  | AOM
  | MOA
deriving DecidableEq, Repr

/-- Subgroup construction method, mirroring the `method` strings
`'static'` / `'dynamic'` accepted by `_aom_moa_helper`. -/
inductive Method where
  | static
  | dynamic
deriving DecidableEq, Repr

/-- Errors raised by the combination functions.  `parameterRange` is the
`check_parameter` failure on `n_buckets`; `unevenBucket` is the
`ValueError` raised in static mode when `n_estimators % n_buckets != 0`;
`emptyRandintRange` is the `ValueError` numpy's `randint(low, high)`
raises when `low >= high`; `shapeMismatch expected received` is the
`ValueError` raised by `average` naming the expected and the received
weight shapes; `assertionError` is the `assert_equal` failure in
`majority_vote`. -/
inductive CombError where
  | parameterRange
  | unevenBucket
  | emptyRandintRange
  | shapeMismatch (expected received : List Nat)
  | assertionError
deriving DecidableEq, Repr

instance {ε α : Type} [DecidableEq ε] [DecidableEq α] :
    DecidableEq (Except ε α) := fun x y =>
  match x, y with
  | .error e, .error f =>
    if h : e = f then .isTrue (by rw [h])
    else .isFalse (by intro hc; cases hc; exact h rfl)
  | .error _, .ok _ => .isFalse (by intro hc; cases hc)
  | .ok _, .error _ => .isFalse (by intro hc; cases hc)
  | .ok a, .ok b =>
    if h : a = b then .isTrue (by rw [h])
    else .isFalse (by intro hc; cases hc; exact h rfl)

/-- Deterministic model of the random primitives used by
`_aom_moa_helper` when `random_state` is a fixed integer seed:
`shuffle n` is the shuffled copy of `list(range(n))`, `sampleWOR n k`
is `sample_without_replacement(n, k, random_state=seed)`, and
`randint lo hi` is `RandomState(seed).randint(lo, hi)` (`none` models the
`ValueError` raised when `lo >= hi`).  Because the Python code passes the
same integer seed to every call, repeated calls with equal arguments
return equal results, which this functional model captures exactly. -/
structure RandomSource where
  shuffle : Nat → List Nat
  sampleWOR : Nat → Nat → List Nat
  randint : Nat → Nat → Option Nat

/-- Guarantees provided by the sklearn/numpy random primitives:
a shuffle is a permutation of `range n`; a without-replacement sample of
`k ≤ n` items is a list of `k` distinct indices below `n`; `randint`
succeeds exactly on nonempty ranges and yields a value in the range. -/
def RandomSource.WF (r : RandomSource) : Prop :=
  (∀ n, (r.shuffle n).Perm (List.range n)) ∧
  (∀ n k, k ≤ n →
    (r.sampleWOR n k).length = k ∧ (r.sampleWOR n k).Nodup ∧
    ∀ j ∈ r.sampleWOR n k, j < n) ∧
  (∀ lo hi, (r.randint lo hi).isSome ↔ lo < hi) ∧
  (∀ lo hi v, r.randint lo hi = some v → lo ≤ v ∧ v < hi)

/-- Maximum of a list of rationals (`np.max` over a nonempty axis); the
value on `[]` is irrelevant and never reached by the code. -/
def listMax : List ℚ → ℚ
  | [] => 0
  | [x] => x
  | x :: y :: t => max x (listMax (y :: t))

/-- Minimum of a list of rationals (`np.min` over a nonempty axis). -/
def listMin : List ℚ → ℚ
  | [] => 0
  | [x] => x
  | x :: y :: t => min x (listMin (y :: t))

/-- Arithmetic mean of a list of rationals (`np.mean` over an axis). -/
def listMean (l : List ℚ) : ℚ := l.sum / l.length

/-- Number of estimator columns: `scores.shape[1]` of the (rectangular)
score matrix. -/
def nEstimators (scores : List (List ℚ)) : Nat := (scores.headD []).length

/-- Well-formedness of a score matrix as enforced by `check_array`:
at least one sample, at least one estimator, rectangular rows. -/
def MatrixWF (scores : List (List ℚ)) : Prop :=
  scores ≠ [] ∧ 1 ≤ nEstimators scores ∧
    ∀ row ∈ scores, row.length = nEstimators scores

/-- Values of one row at the column indices of one bucket:
`scores[i, ind]` for a row `i`. -/
def selectCols (row : List ℚ) (bucket : List Nat) : List ℚ :=
  bucket.map fun j => row.getD j 0

/-- Within-bucket reduction: `np.max` of the bucket's columns for AOM,
`np.mean` for MOA (lines 92-97 / 107-110 / 120-123 of score_comb.py). -/
def bucketReduce (mode : Mode) (row : List ℚ) (bucket : List Nat) : ℚ :=
  match mode with
  | .AOM => listMax (selectCols row bucket)
  | .MOA => listMean (selectCols row bucket)

/-- Across-bucket reduction of one sample's per-bucket scores:
`np.mean(scores_buckets, axis=1)` for AOM, `np.max` for MOA
(lines 129-132 of score_comb.py). -/
def rowCombine (mode : Mode) (row : List ℚ) (buckets : List (List Nat)) : ℚ :=
  match mode with
  | .AOM => listMean (buckets.map fun b => bucketReduce mode row b)
  | .MOA => listMax (buckets.map fun b => bucketReduce mode row b)

/-- Full reduction of the score matrix over a bucket assignment: build
`scores_buckets` row by row and reduce across buckets. -/
def combineBuckets (mode : Mode) (scores : List (List ℚ))
    (buckets : List (List Nat)) : List ℚ :=
  scores.map fun row => rowCombine mode row buckets

/-- Static non-bootstrap bucket assignment: cut the shuffled index list
into `nBuckets` contiguous slices of length `k` (the
`shuffled_list[head:tail]` loop of lines 88-100). -/
def staticPartitionBuckets (shuffled : List Nat) (k nBuckets : Nat) :
    List (List Nat) :=
  (List.range nBuckets).map fun b => (shuffled.drop (b * k)).take k

/-- Static bootstrap bucket assignment: each loop iteration calls
`sample_without_replacement(n_estimators, n_estimators_per_bucket,
random_state=random_state)` with the same integer seed (lines 103-110). -/
def staticBootstrapBuckets (r : RandomSource) (n k nBuckets : Nat) :
    List (List Nat) :=
  (List.range nBuckets).map fun _ => r.sampleWOR n k

/-- Dynamic bucket assignment, mirroring the loop of lines 113-123: each
iteration rebuilds `RandomState(seed=random_state)` and draws the bucket
size from `randint(2, n_estimators // 2)`, then samples that many
columns without replacement, again from the same fixed seed. -/
def dynamicBuckets (r : RandomSource) (n : Nat) : Nat → Option (List (List Nat))
  | 0 => some []
  | m + 1 =>
    match r.randint 2 (n / 2) with
    | none => none
    | some sz =>
      match dynamicBuckets r n m with
      | none => none
      | some rest => some (r.sampleWOR n sz :: rest)

/-- Bucket assignment built by `_aom_moa_helper` after the `n_buckets`
validation, branching exactly as the source: in static mode the
divisibility check precedes the bootstrap branch; in dynamic mode the
size draw may fail with numpy's empty-range `ValueError`. -/
def bucketAssignment (scores : List (List ℚ)) (nBuckets : Nat)
    (method : Method) (bootstrap : Bool) (r : RandomSource) :
    Except CombError (List (List Nat)) :=
  let n := nEstimators scores
  match method with
  | .static =>
    if n % nBuckets ≠ 0 then .error .unevenBucket
    else if bootstrap then .ok (staticBootstrapBuckets r n (n / nBuckets) nBuckets)
    else .ok (staticPartitionBuckets (r.shuffle n) (n / nBuckets) nBuckets)
  | .dynamic =>
    match dynamicBuckets r n nBuckets with
    | none => .error .emptyRandintRange
    | some B => .ok B

/-- Embedding of `_aom_moa_helper(mode, scores, n_buckets, method,
bootstrap_estimators, random_state)`: validate
`2 <= n_buckets <= n_estimators` (`check_parameter`), build the bucket
assignment, reduce within and across buckets. -/
def aom_moa_helper (mode : Mode) (scores : List (List ℚ)) (nBuckets : Nat)
    (method : Method) (bootstrap : Bool) (r : RandomSource) :
    Except CombError (List ℚ) :=
  let n := nEstimators scores
  if 2 ≤ nBuckets ∧ nBuckets ≤ n then
    match bucketAssignment scores nBuckets method bootstrap r with
    | .error e => .error e
    | .ok B => .ok (combineBuckets mode scores B)
  else .error .parameterRange

/-- Embedding of `aom(scores, n_buckets, method, bootstrap_estimators,
random_state)`. -/
def aom (scores : List (List ℚ)) (nBuckets : Nat) (method : Method)
    (bootstrap : Bool) (r : RandomSource) : Except CombError (List ℚ) :=
  aom_moa_helper .AOM scores nBuckets method bootstrap r

/-- Embedding of `moa(scores, n_buckets, method, bootstrap_estimators,
random_state)`. -/
def moa (scores : List (List ℚ)) (nBuckets : Nat) (method : Method)
    (bootstrap : Bool) (r : RandomSource) : Except CombError (List ℚ) :=
  aom_moa_helper .MOA scores nBuckets method bootstrap r

/-- Numpy array model for the weight argument of `average`: a shape
together with the flattened data, so that the source's shape test
`estimator_weights.shape != (1, scores.shape[1])` is expressible (a 1-D
array of length `n` has shape `[n]`, a row matrix has shape `[1, n]`). -/
structure NpArray where
  shape : List Nat
  data : List ℚ
deriving DecidableEq, Repr

/-- Embedding of `average(scores, estimator_weights)`: without weights,
the row-wise mean; with weights, require shape `(1, n_estimators)` (else
the `ValueError` naming expected and received shapes), then return the
row-wise weighted sum divided by the sum of the weights. -/
def average (scores : List (List ℚ)) (weights : Option NpArray) :
    Except CombError (List ℚ) :=
  match weights with
  | none => .ok (scores.map fun row => listMean row)
  | some w =>
    if w.shape ≠ [1, nEstimators scores] then
      .error (.shapeMismatch [1, nEstimators scores] w.shape)
    else
      .ok (scores.map fun row =>
        (List.zipWith (· * ·) row w.data).sum / w.data.sum)

/-- Sum of the weights of the estimators that voted for label `lab` in
one row (the `template[ind] = w[ind]; np.sum(template)` step of
sklearn's `weighted_mode`). -/
def weightedCount (row w : List ℚ) (lab : ℚ) : ℚ :=
  (((List.zip row w).filter fun p => p.1 = lab).map Prod.snd).sum

/-- One update step of `weighted_mode`: keep the incumbent unless the
new label's weighted count is strictly greater
(`np.where(counts > oldcounts, score, oldmostfreq)`). -/
def modeStep (row w : List ℚ) (acc : ℚ × ℚ) (lab : ℚ) : ℚ × ℚ :=
  let c := weightedCount row w lab
  if acc.2 < c then (lab, c) else acc

/-- Weighted mode of one row, mirroring sklearn's `weighted_mode`: scan
the sorted distinct values of the row (`np.unique`), starting from the
all-zero incumbent, updating only on a strictly greater weighted count. -/
def weightedModeRow (row w : List ℚ) : ℚ :=
  ((List.insertionSort (· ≤ ·) row.dedup).foldl (modeStep row w) (0, 0)).1

/-- Embedding of `majority_vote(scores, n_classes, weights)`: per row the
weighted mode; `weights=None` becomes `np.ones([1, n_estimators])`; with
weights, `assert_equal(scores.shape[1], weights.shape[1])`. -/
def majority_vote (scores : List (List ℚ)) (weights : Option (List ℚ)) :
    Except CombError (List ℚ) :=
  match weights with
  | some w =>
    if w.length ≠ nEstimators scores then .error .assertionError
    else .ok (scores.map fun row => weightedModeRow row w)
  | none =>
    .ok (scores.map fun row =>
      weightedModeRow row (List.replicate (nEstimators scores) 1))

/-- Concrete well-formed random source used to evaluate the theorems on
explicit inputs: the identity shuffle, the without-replacement sample
taking the first `k` indices, and `randint` returning the low end of a
nonempty range. -/
def trivialRandom : RandomSource where
  shuffle n := List.range n
  sampleWOR _ k := List.range k
  randint lo hi := if lo < hi then some lo else none

theorem trivialRandom_wf : trivialRandom.WF := by
  refine ⟨fun n => List.Perm.refl _, fun n k hk => ?_, fun lo hi => ?_, ?_⟩
  · refine ⟨List.length_range k, List.nodup_range k, fun j hj => ?_⟩
    exact lt_of_lt_of_le (List.mem_range.mp hj) hk
  · simp only [trivialRandom]
    split <;> simp_all
  · intro lo hi v h
    simp only [trivialRandom] at h
    split at h
    · cases h
      omega
    · cases h

/-! Basic lemmas about the row reductions. -/

theorem listMax_cons (x : ℚ) (l : List ℚ) (h : l ≠ []) :
    listMax (x :: l) = max x (listMax l) := by
  cases l with
  | nil => exact absurd rfl h
  | cons y t => rfl

theorem listMin_cons (x : ℚ) (l : List ℚ) (h : l ≠ []) :
    listMin (x :: l) = min x (listMin l) := by
  cases l with
  | nil => exact absurd rfl h
  | cons y t => rfl

theorem listMax_mem : ∀ (l : List ℚ), l ≠ [] → listMax l ∈ l
  | [], h => absurd rfl h
  | [x], _ => by simp [listMax]
  | x :: y :: t, _ => by
    rw [listMax_cons x (y :: t) (by simp)]
    rcases le_total x (listMax (y :: t)) with h | h
    · rw [max_eq_right h]
      exact List.mem_cons_of_mem x (listMax_mem (y :: t) (by simp))
    · rw [max_eq_left h]
      exact List.mem_cons_self x (y :: t)

theorem listMin_mem : ∀ (l : List ℚ), l ≠ [] → listMin l ∈ l
  | [], h => absurd rfl h
  | [x], _ => by simp [listMin]
  | x :: y :: t, _ => by
    rw [listMin_cons x (y :: t) (by simp)]
    rcases le_total (listMin (y :: t)) x with h | h
    · rw [min_eq_right h]
      exact List.mem_cons_of_mem x (listMin_mem (y :: t) (by simp))
    · rw [min_eq_left h]
      exact List.mem_cons_self x (y :: t)

theorem le_listMax : ∀ (l : List ℚ), ∀ x ∈ l, x ≤ listMax l
  | [], x, hx => absurd hx (List.not_mem_nil x)
  | [y], x, hx => by
    rw [List.mem_singleton] at hx
    subst hx
    exact le_refl _
  | y :: z :: t, x, hx => by
    rw [listMax_cons y (z :: t) (by simp)]
    rcases List.mem_cons.mp hx with h | h
    · subst h
      exact le_max_left _ _
    · exact le_trans (le_listMax (z :: t) x h) (le_max_right _ _)

theorem listMin_le : ∀ (l : List ℚ), ∀ x ∈ l, listMin l ≤ x
  | [], x, hx => absurd hx (List.not_mem_nil x)
  | [y], x, hx => by
    rw [List.mem_singleton] at hx
    subst hx
    exact le_refl _
  | y :: z :: t, x, hx => by
    rw [listMin_cons y (z :: t) (by simp)]
    rcases List.mem_cons.mp hx with h | h
    · subst h
      exact min_le_left _ _
    · exact le_trans (min_le_right _ _) (listMin_le (z :: t) x h)

theorem listMax_le (l : List ℚ) (h : l ≠ []) (M : ℚ) (hb : ∀ x ∈ l, x ≤ M) :
    listMax l ≤ M :=
  hb _ (listMax_mem l h)

theorem le_listMin (l : List ℚ) (h : l ≠ []) (m : ℚ) (hb : ∀ x ∈ l, m ≤ x) :
    m ≤ listMin l :=
  hb _ (listMin_mem l h)

theorem sum_le_length_mul (l : List ℚ) (M : ℚ) (h : ∀ x ∈ l, x ≤ M) :
    l.sum ≤ (l.length : ℚ) * M := by
  induction l with
  | nil => simp
  | cons x t ih =>
    have hx := h x (List.mem_cons_self x t)
    have ht := ih fun y hy => h y (List.mem_cons_of_mem x hy)
    simp only [List.sum_cons, List.length_cons]
    push_cast
    nlinarith

theorem length_mul_le_sum (l : List ℚ) (m : ℚ) (h : ∀ x ∈ l, m ≤ x) :
    (l.length : ℚ) * m ≤ l.sum := by
  induction l with
  | nil => simp
  | cons x t ih =>
    have hx := h x (List.mem_cons_self x t)
    have ht := ih fun y hy => h y (List.mem_cons_of_mem x hy)
    simp only [List.sum_cons, List.length_cons]
    push_cast
    nlinarith

theorem length_pos_rat (l : List ℚ) (h : l ≠ []) : 0 < (l.length : ℚ) := by
  have : 0 < l.length := List.length_pos.mpr h
  exact_mod_cast this

theorem listMean_le (l : List ℚ) (h : l ≠ []) (M : ℚ) (hb : ∀ x ∈ l, x ≤ M) :
    listMean l ≤ M := by
  rw [listMean, div_le_iff₀ (length_pos_rat l h), mul_comm]
  exact sum_le_length_mul l M hb

theorem le_listMean (l : List ℚ) (h : l ≠ []) (m : ℚ) (hb : ∀ x ∈ l, m ≤ x) :
    m ≤ listMean l := by
  rw [listMean, le_div_iff₀ (length_pos_rat l h), mul_comm]
  exact length_mul_le_sum l m hb

theorem listMean_replicate (m : Nat) (hm : 0 < m) (x : ℚ) :
    listMean (List.replicate m x) = x := by
  rw [listMean, List.sum_replicate, List.length_replicate, nsmul_eq_mul]
  have hm' : (m : ℚ) ≠ 0 := by exact_mod_cast Nat.pos_iff_ne_zero.mp hm
  exact mul_div_cancel_left₀ x hm'

theorem listMax_replicate : ∀ (m : Nat), 0 < m → ∀ x : ℚ,
    listMax (List.replicate m x) = x
  | 0, h, _ => absurd h (lt_irrefl 0)
  | 1, _, x => rfl
  | m + 2, _, x => by
    rw [List.replicate_succ, listMax_cons _ _ (by simp),
      listMax_replicate (m + 1) (Nat.succ_pos m) x, max_self]

theorem getD_mem (l : List ℚ) (j : Nat) (h : j < l.length) : l.getD j 0 ∈ l := by
  rw [List.getD_eq_getElem l 0 h]
  exact List.getElem_mem h

/-! Structural lemmas about the bucket assignments and the helper. -/

theorem staticBootstrapBuckets_eq_replicate (r : RandomSource) (n k m : Nat) :
    staticBootstrapBuckets r n k m = List.replicate m (r.sampleWOR n k) := by
  simp [staticBootstrapBuckets, List.map_const', List.length_range]

theorem dynamicBuckets_none (r : RandomSource) (n : Nat)
    (h : r.randint 2 (n / 2) = none) :
    ∀ m, 0 < m → dynamicBuckets r n m = none := by
  intro m hm
  cases m with
  | zero => omega
  | succ k => simp [dynamicBuckets, h]

theorem dynamicBuckets_replicate (r : RandomSource) (n sz : Nat)
    (h : r.randint 2 (n / 2) = some sz) :
    ∀ m, dynamicBuckets r n m = some (List.replicate m (r.sampleWOR n sz)) := by
  intro m
  induction m with
  | zero => simp [dynamicBuckets]
  | succ k ih => simp [dynamicBuckets, h, ih, List.replicate_succ]

theorem dynamicBuckets_some (r : RandomSource) (n m : Nat)
    (B : List (List Nat)) (hm : 0 < m) (hB : dynamicBuckets r n m = some B) :
    ∃ sz, r.randint 2 (n / 2) = some sz ∧
      B = List.replicate m (r.sampleWOR n sz) := by
  cases hr : r.randint 2 (n / 2) with
  | none => rw [dynamicBuckets_none r n hr m hm] at hB; cases hB
  | some sz =>
    refine ⟨sz, rfl, ?_⟩
    rw [dynamicBuckets_replicate r n sz hr m] at hB
    exact (Option.some_injective _ hB).symm

theorem helper_ok_elim (mode : Mode) (scores : List (List ℚ)) (nBuckets : Nat)
    (method : Method) (bootstrap : Bool) (r : RandomSource) (out : List ℚ)
    (h : aom_moa_helper mode scores nBuckets method bootstrap r = .ok out) :
    (2 ≤ nBuckets ∧ nBuckets ≤ nEstimators scores) ∧
    ∃ B, bucketAssignment scores nBuckets method bootstrap r = .ok B ∧
      out = combineBuckets mode scores B := by
  by_cases hval : 2 ≤ nBuckets ∧ nBuckets ≤ nEstimators scores
  · refine ⟨hval, ?_⟩
    simp only [aom_moa_helper] at h
    rw [if_pos hval] at h
    cases hB : bucketAssignment scores nBuckets method bootstrap r with
    | error e => rw [hB] at h; cases h
    | ok B =>
      rw [hB] at h
      simp only at h
      cases h
      exact ⟨B, rfl, rfl⟩
  · simp only [aom_moa_helper] at h
    rw [if_neg hval] at h
    cases h

theorem slices_flatten : ∀ (m k : Nat) (p : List Nat), p.length = m * k →
    ((List.range m).map fun b => (p.drop (b * k)).take k).flatten = p := by
  intro m
  induction m with
  | zero =>
    intro k p hp
    rw [Nat.zero_mul] at hp
    simp [List.eq_nil_of_length_eq_zero hp]
  | succ m ih =>
    intro k p hp
    rw [List.range_succ_eq_map, List.map_cons, List.map_map]
    have hcomp : ((fun b => (p.drop (b * k)).take k) ∘ Nat.succ) =
        fun b => ((p.drop k).drop (b * k)).take k := by
      funext b
      simp only [Function.comp_apply, List.drop_drop]
      congr 2
      rw [Nat.succ_mul]
      omega
    rw [hcomp, List.flatten_cons]
    have hlen : (p.drop k).length = m * k := by
      rw [List.length_drop, hp, Nat.succ_mul]
      omega
    rw [ih k (p.drop k) hlen]
    simp [List.take_append_drop]

theorem bucketAssignment_wf (scores : List (List ℚ)) (nBuckets : Nat)
    (method : Method) (bootstrap : Bool) (r : RandomSource)
    (B : List (List Nat)) (hr : r.WF) (h2 : 2 ≤ nBuckets)
    (hbn : nBuckets ≤ nEstimators scores)
    (hB : bucketAssignment scores nBuckets method bootstrap r = .ok B) :
    B ≠ [] ∧ ∀ b ∈ B, b ≠ [] ∧ ∀ j ∈ b, j < nEstimators scores := by
  obtain ⟨hperm, hsamp, _, hrintMem⟩ := hr
  cases method with
  | static =>
    unfold bucketAssignment at hB
    simp only at hB
    split at hB
    · cases hB
    · next hmod =>
      have hmod' : nEstimators scores % nBuckets = 0 := by
        by_contra hc
        exact hmod hc
      have hk1 : 1 ≤ nEstimators scores / nBuckets :=
        (Nat.one_le_div_iff (by omega)).mpr hbn
      have hkn : nEstimators scores / nBuckets ≤ nEstimators scores :=
        Nat.div_le_self _ _
      split at hB
      · -- bootstrap branch
        cases hB
        rw [staticBootstrapBuckets_eq_replicate]
        constructor
        · intro hc
          have := congrArg List.length hc
          rw [List.length_replicate] at this
          simp at this
          omega
        · intro b hb
          have hbeq := List.eq_of_mem_replicate hb
          subst hbeq
          obtain ⟨hlen, _, hmem⟩ := hsamp _ _ hkn
          refine ⟨?_, hmem⟩
          intro hc
          rw [hc] at hlen
          simp at hlen
          omega
      · -- partition branch
        cases hB
        have hlenp : (r.shuffle (nEstimators scores)).length = nEstimators scores := by
          rw [(hperm _).length_eq, List.length_range]
        have hnk : nBuckets * (nEstimators scores / nBuckets) = nEstimators scores :=
          Nat.mul_div_cancel' (Nat.dvd_of_mod_eq_zero hmod')
        constructor
        · intro hc
          have := congrArg List.length hc
          simp [staticPartitionBuckets, List.length_range] at this
          omega
        · intro b hb
          simp only [staticPartitionBuckets, List.mem_map, List.mem_range] at hb
          obtain ⟨i, hi, rfl⟩ := hb
          constructor
          · intro hc
            have := congrArg List.length hc
            rw [List.length_take, List.length_drop, hlenp] at this
            simp at this
            rcases this with h | h
            · omega
            · -- n - i * k = 0 contradicts (i+1) * k ≤ n
              have : (i + 1) * (nEstimators scores / nBuckets) ≤ nEstimators scores := by
                calc (i + 1) * (nEstimators scores / nBuckets)
                    ≤ nBuckets * (nEstimators scores / nBuckets) :=
                      Nat.mul_le_mul_right _ (by omega)
                  _ = nEstimators scores := hnk
              have hik : i * (nEstimators scores / nBuckets) +
                  (nEstimators scores / nBuckets) ≤ nEstimators scores := by
                rw [← Nat.succ_mul]
                exact this
              omega
          · intro j hj
            have hjp : j ∈ r.shuffle (nEstimators scores) :=
              List.drop_subset _ _ (List.take_subset _ _ hj)
            have := ((hperm _).mem_iff).mp hjp
            exact List.mem_range.mp this
  | dynamic =>
    unfold bucketAssignment at hB
    simp only at hB
    cases hd : dynamicBuckets r (nEstimators scores) nBuckets with
    | none => rw [hd] at hB; cases hB
    | some B' =>
      rw [hd] at hB
      cases hB
      obtain ⟨sz, hsz, hrep⟩ := dynamicBuckets_some r _ _ _ (by omega) hd
      obtain ⟨hsz2, hszhi⟩ := hrintMem _ _ _ hsz
      have hszn : sz ≤ nEstimators scores :=
        le_trans (le_of_lt hszhi) (Nat.div_le_self _ _)
      subst hrep
      constructor
      · intro hc
        have := congrArg List.length hc
        rw [List.length_replicate] at this
        simp at this
        omega
      · intro b hb
        have hbeq := List.eq_of_mem_replicate hb
        subst hbeq
        obtain ⟨hlen, _, hmem⟩ := hsamp _ _ hszn
        refine ⟨?_, hmem⟩
        intro hc
        rw [hc] at hlen
        simp at hlen
        omega

theorem bucketReduce_bounds (mode : Mode) (row : List ℚ) (b : List Nat)
    (hb : b ≠ []) (hmem : ∀ j ∈ b, j < row.length) :
    listMin row ≤ bucketReduce mode row b ∧ bucketReduce mode row b ≤ listMax row := by
  have hsel : selectCols row b ≠ [] := by
    intro hc
    exact hb (List.map_eq_nil_iff.mp hc)
  have hselmem : ∀ x ∈ selectCols row b, x ∈ row := by
    intro x hx
    simp only [selectCols, List.mem_map] at hx
    obtain ⟨j, hj, rfl⟩ := hx
    exact getD_mem row j (hmem j hj)
  cases mode with
  | AOM =>
    refine ⟨?_, ?_⟩
    · exact listMin_le row _ (hselmem _ (listMax_mem _ hsel))
    · exact listMax_le _ hsel _ fun x hx => le_listMax row x (hselmem x hx)
  | MOA =>
    refine ⟨?_, ?_⟩
    · exact le_listMean _ hsel _ fun x hx => listMin_le row x (hselmem x hx)
    · exact listMean_le _ hsel _ fun x hx => le_listMax row x (hselmem x hx)

theorem rowCombine_bounds (mode : Mode) (row : List ℚ) (B : List (List Nat))
    (hB : B ≠ []) (hwfB : ∀ b ∈ B, b ≠ [] ∧ ∀ j ∈ b, j < row.length) :
    listMin row ≤ rowCombine mode row B ∧ rowCombine mode row B ≤ listMax row := by
  have hvals : (B.map fun b => bucketReduce mode row b) ≠ [] := by
    intro hc
    exact hB (List.map_eq_nil_iff.mp hc)
  have hlo : ∀ v ∈ B.map (fun b => bucketReduce mode row b), listMin row ≤ v := by
    intro v hv
    simp only [List.mem_map] at hv
    obtain ⟨b, hb, rfl⟩ := hv
    exact (bucketReduce_bounds mode row b (hwfB b hb).1 (hwfB b hb).2).1
  have hhi : ∀ v ∈ B.map (fun b => bucketReduce mode row b), v ≤ listMax row := by
    intro v hv
    simp only [List.mem_map] at hv
    obtain ⟨b, hb, rfl⟩ := hv
    exact (bucketReduce_bounds mode row b (hwfB b hb).1 (hwfB b hb).2).2
  cases mode with
  | AOM => exact ⟨le_listMean _ hvals _ hlo, listMean_le _ hvals _ hhi⟩
  | MOA =>
    refine ⟨?_, ?_⟩
    · exact hlo _ (listMax_mem _ hvals)
    · exact listMax_le _ hvals _ hhi

/-- Specification-side statement of AOM, written from the spec's words:
within each bucket, take the per-sample maximum score across that
bucket's estimator columns; then average those per-sample bucket-maxima
across all buckets. -/
def specAOM (scores : List (List ℚ)) (buckets : List (List Nat)) : List ℚ :=
  scores.map fun row => listMean (buckets.map fun b => listMax (selectCols row b))

/-- Specification-side statement of MOA, written from the spec's words:
within each bucket, take the per-sample mean across that bucket's
columns; then take the per-sample maximum across bucket-means. -/
def specMOA (scores : List (List ℚ)) (buckets : List (List Nat)) : List ℚ :=
  scores.map fun row => listMax (buckets.map fun b => listMean (selectCols row b))

theorem combineBuckets_AOM (scores : List (List ℚ)) (B : List (List Nat)) :
    combineBuckets .AOM scores B = specAOM scores B := by
  simp [combineBuckets, specAOM, rowCombine, bucketReduce]

theorem combineBuckets_MOA (scores : List (List ℚ)) (B : List (List Nat)) :
    combineBuckets .MOA scores B = specMOA scores B := by
  simp [combineBuckets, specMOA, rowCombine, bucketReduce]

example : aom [[(1:ℚ),2,3,4]] 2 .static false trivialRandom = .ok [3] := by
  norm_num [aom, aom_moa_helper, bucketAssignment, trivialRandom, nEstimators,
    staticPartitionBuckets, combineBuckets, rowCombine, bucketReduce, selectCols,
    listMax, listMean, List.range_succ]

example : moa [[(1:ℚ),2,3,4]] 2 .static false trivialRandom = .ok [(7:ℚ)/2] := by
  norm_num [moa, aom_moa_helper, bucketAssignment, trivialRandom, nEstimators,
    staticPartitionBuckets, combineBuckets, rowCombine, bucketReduce, selectCols,
    listMax, listMean, List.range_succ]

example : aom [[(1:ℚ),2,3,4]] 3 .static true trivialRandom = .error .unevenBucket := by
  norm_num [aom, aom_moa_helper, bucketAssignment, nEstimators]

example : aom [[(1:ℚ),2,3,4]] 2 .dynamic false trivialRandom = .error .emptyRandintRange := by
  norm_num [aom, aom_moa_helper, bucketAssignment, dynamicBuckets, trivialRandom,
    nEstimators]

example : aom [[(1:ℚ),2,3,4,5,6]] 2 .dynamic false trivialRandom = .ok [2] := by
  norm_num [aom, aom_moa_helper, bucketAssignment, dynamicBuckets, trivialRandom,
    nEstimators, combineBuckets, rowCombine, bucketReduce, selectCols,
    listMax, listMean, List.range_succ]

example : average [[(1:ℚ),3]] (some ⟨[1,2],[1,3]⟩) = .ok [(5:ℚ)/2] := by
  norm_num [average, nEstimators]

example : majority_vote [[(0:ℚ),0,1],[1,1,0]] none = .ok [0,1] := by
  norm_num [majority_vote, nEstimators, weightedModeRow, weightedCount, modeStep,
    List.insertionSort, List.orderedInsert, List.dedup, List.pwFilter,
    List.zip, List.zipWith, List.replicate, List.filter]

theorem getD_mem_of_lt {α : Type} (l : List α) (d : α) (j : Nat)
    (h : j < l.length) : l.getD j d ∈ l := by
  rw [List.getD_eq_getElem l d h]
  exact List.getElem_mem h

theorem rowCombine_replicate (mode : Mode) (row : List ℚ) (m : Nat)
    (b : List Nat) (hm : 0 < m) :
    rowCombine mode row (List.replicate m b) = bucketReduce mode row b := by
  cases mode with
  | AOM =>
    simp only [rowCombine, List.map_replicate]
    exact listMean_replicate m hm _
  | MOA =>
    simp only [rowCombine, List.map_replicate]
    exact listMax_replicate m hm _

theorem combineBuckets_replicate (mode : Mode) (scores : List (List ℚ))
    (m : Nat) (b : List Nat) (hm : 0 < m) :
    combineBuckets mode scores (List.replicate m b) =
      scores.map fun row => bucketReduce mode row b := by
  unfold combineBuckets
  exact List.map_congr_left fun row _ => rowCombine_replicate mode row m b hm

theorem zipWith_mul_sum : ∀ (a b : List ℚ), a.length = b.length →
    (List.zipWith (· * ·) a b).sum =
      ∑ j ∈ Finset.range b.length, a.getD j 0 * b.getD j 0 := by
  intro a
  induction a with
  | nil =>
    intro b hb
    simp only [List.length_nil] at hb
    have : b = [] := List.eq_nil_of_length_eq_zero hb.symm
    subst this
    simp
  | cons x xs ih =>
    intro b hb
    cases b with
    | nil => simp at hb
    | cons y ys =>
      simp only [List.zipWith_cons_cons, List.sum_cons, List.length_cons]
      rw [Finset.sum_range_succ']
      simp only [List.getD_cons_succ, List.getD_cons_zero]
      rw [ih ys (by simpa using hb)]
      ring

theorem mapSnd_filter_pos (row w : List ℚ) (lab : ℚ) (hw : ∀ x ∈ w, 0 < x) :
    ∀ x ∈ (((List.zip row w).filter fun p => p.1 = lab).map Prod.snd), 0 < x := by
  intro x hx
  rw [List.mem_map] at hx
  obtain ⟨⟨a, c⟩, hp, rfl⟩ := hx
  rw [List.mem_filter] at hp
  exact hw _ (List.of_mem_zip hp.1).2

theorem count_mem_pos (row w : List ℚ) (lab : ℚ) (hlen : w.length = row.length)
    (hw : ∀ x ∈ w, 0 < x) (hlab : lab ∈ row) : 0 < weightedCount row w lab := by
  obtain ⟨i, hi, hieq⟩ := List.mem_iff_getElem.mp hlab
  have hiw : i < w.length := by omega
  have hiz : i < (List.zip row w).length := by
    rw [List.length_zip]
    omega
  have hz : (List.zip row w)[i] = (row[i], w[i]) := List.getElem_zip
  have hpair : (row[i], w[i]) ∈ List.zip row w := by
    rw [← hz]
    exact List.getElem_mem hiz
  have hmem2 : (row[i], w[i]) ∈ (List.zip row w).filter fun p => p.1 = lab := by
    rw [List.mem_filter]
    refine ⟨hpair, ?_⟩
    simp [hieq]
  have hmem3 : w[i] ∈ (((List.zip row w).filter fun p => p.1 = lab).map Prod.snd) :=
    List.mem_map.mpr ⟨_, hmem2, rfl⟩
  exact List.sum_pos _ (mapSnd_filter_pos row w lab hw) (List.ne_nil_of_mem hmem3)

theorem modeStep_foldl_spec (row w : List ℚ) :
    ∀ (l : List ℚ), l.Sorted (· ≤ ·) → ∀ (acc : ℚ × ℚ),
      acc.2 ≤ (l.foldl (modeStep row w) acc).2 ∧
      (∀ lab ∈ l, weightedCount row w lab ≤ (l.foldl (modeStep row w) acc).2) ∧
      ((l.foldl (modeStep row w) acc) = acc ∨
        (acc.2 < (l.foldl (modeStep row w) acc).2 ∧
         ∃ lab ∈ l, (l.foldl (modeStep row w) acc) = (lab, weightedCount row w lab) ∧
           ∀ lab' ∈ l, lab' < lab →
             weightedCount row w lab' < (l.foldl (modeStep row w) acc).2)) := by
  intro l
  induction l with
  | nil =>
    intro _ acc
    exact ⟨le_refl _, by simp, Or.inl rfl⟩
  | cons a t ih =>
    intro hs acc
    have hst : t.Sorted (· ≤ ·) := (List.sorted_cons.mp hs).2
    have hat : ∀ x ∈ t, a ≤ x := (List.sorted_cons.mp hs).1
    rw [List.foldl_cons]
    by_cases hca : acc.2 < weightedCount row w a
    · have hstep : modeStep row w acc a = (a, weightedCount row w a) := by
        rw [modeStep]
        simp [hca]
      rw [hstep]
      obtain ⟨ih1, ih2, ih3⟩ := ih hst (a, weightedCount row w a)
      refine ⟨le_trans (le_of_lt hca) ih1, ?_, ?_⟩
      · intro lab hlab
        rcases List.mem_cons.mp hlab with h | h
        · subst h
          exact ih1
        · exact ih2 lab h
      · right
        rcases ih3 with heq | ⟨hlt, lab, hlabmem, heqr, htie⟩
        · rw [heq]
          refine ⟨hca, a, List.mem_cons_self a t, rfl, ?_⟩
          intro lab' hl' hlt'
          rcases List.mem_cons.mp hl' with h | h
          · subst h
            exact absurd hlt' (lt_irrefl _)
          · exact absurd hlt' (not_lt.mpr (hat lab' h))
        · refine ⟨lt_trans hca hlt, lab, List.mem_cons_of_mem a hlabmem, heqr, ?_⟩
          intro lab' hl' hlt'
          rcases List.mem_cons.mp hl' with h | h
          · subst h
            exact hlt
          · exact htie lab' h hlt'
    · have hstep : modeStep row w acc a = acc := by
        rw [modeStep]
        simp [hca]
      rw [hstep]
      obtain ⟨ih1, ih2, ih3⟩ := ih hst acc
      refine ⟨ih1, ?_, ?_⟩
      · intro lab hlab
        rcases List.mem_cons.mp hlab with h | h
        · subst h
          exact le_trans (not_lt.mp hca) ih1
        · exact ih2 lab h
      · rcases ih3 with heq | ⟨hlt, lab, hlabmem, heqr, htie⟩
        · exact Or.inl heq
        · right
          refine ⟨hlt, lab, List.mem_cons_of_mem a hlabmem, heqr, ?_⟩
          intro lab' hl' hlt'
          rcases List.mem_cons.mp hl' with h | h
          · subst h
            exact lt_of_le_of_lt (not_lt.mp hca) hlt
          · exact htie lab' h hlt'

theorem weightedModeRow_spec (row w : List ℚ) (hrow : row ≠ [])
    (hlen : w.length = row.length) (hw : ∀ x ∈ w, 0 < x) :
    weightedModeRow row w ∈ row ∧
    (∀ lab ∈ row,
      weightedCount row w lab ≤ weightedCount row w (weightedModeRow row w)) ∧
    (∀ lab ∈ row,
      weightedCount row w lab = weightedCount row w (weightedModeRow row w) →
      weightedModeRow row w ≤ lab) := by
  have hsorted : (List.insertionSort (· ≤ ·) row.dedup).Sorted (· ≤ ·) :=
    List.sorted_insertionSort _ _
  have hmemiff : ∀ x, x ∈ List.insertionSort (· ≤ ·) row.dedup ↔ x ∈ row := by
    intro x
    rw [List.mem_insertionSort, List.mem_dedup]
  obtain ⟨h1, h2, h3⟩ := modeStep_foldl_spec row w _ hsorted (0, 0)
  obtain ⟨x, hx⟩ := List.exists_mem_of_ne_nil row hrow
  have hxc : x ∈ List.insertionSort (· ≤ ·) row.dedup := (hmemiff x).mpr hx
  have hpos : 0 < weightedCount row w x := count_mem_pos row w x hlen hw hx
  have hrespos :
      0 < ((List.insertionSort (· ≤ ·) row.dedup).foldl (modeStep row w) (0, 0)).2 :=
    lt_of_lt_of_le hpos (h2 x hxc)
  rcases h3 with heq | ⟨_, lab, hlabmem, heqr, htie⟩
  · rw [heq] at hrespos
    exact absurd hrespos (lt_irrefl 0)
  · have hfst : weightedModeRow row w = lab := by
      rw [weightedModeRow, heqr]
    have hsnd :
        ((List.insertionSort (· ≤ ·) row.dedup).foldl (modeStep row w) (0, 0)).2 =
          weightedCount row w lab := by
      rw [heqr]
    refine ⟨?_, ?_, ?_⟩
    · rw [hfst]
      exact (hmemiff lab).mp hlabmem
    · intro l hl
      rw [hfst, ← hsnd]
      exact h2 l ((hmemiff l).mpr hl)
    · intro l hl hEq
      rw [hfst]
      by_contra hlt
      rw [not_le] at hlt
      have hlow := htie l ((hmemiff l).mpr hl) hlt
      rw [hfst, ← hsnd] at hEq
      exact (ne_of_lt hlow) hEq

/-! Claim theorems. -/

/-- C1: whenever `aom` succeeds, its output is, per sample, the mean
across all buckets of the per-bucket maximum over that bucket's estimator
columns, and `moa` called with the same arguments succeeds and returns,
per sample, the maximum across buckets of the per-bucket means over the
very same bucket assignment: the two modes are exact duals sharing the
bucket assignment logic. -/
theorem aom_moa_dual_structure (scores : List (List ℚ)) (nBuckets : Nat)
    (method : Method) (bootstrap : Bool) (r : RandomSource) (out : List ℚ)
    (h : aom scores nBuckets method bootstrap r = .ok out) :
    ∃ B, out = specAOM scores B ∧
      moa scores nBuckets method bootstrap r = .ok (specMOA scores B) := by
  obtain ⟨hval, B, hB, hout⟩ :=
    helper_ok_elim .AOM scores nBuckets method bootstrap r out h
  refine ⟨B, ?_, ?_⟩
  · rw [hout, combineBuckets_AOM]
  · simp only [moa, aom_moa_helper]
    rw [if_pos hval, hB]
    exact congrArg Except.ok (combineBuckets_MOA scores B)

theorem aom_moa_dual_structure_witness :
    ∃ B, [(3:ℚ)] = specAOM [[(1:ℚ),2,3,4]] B ∧
      moa [[(1:ℚ),2,3,4]] 2 .static false trivialRandom =
        .ok (specMOA [[(1:ℚ),2,3,4]] B) :=
  aom_moa_dual_structure [[(1:ℚ),2,3,4]] 2 .static false trivialRandom [3]
    (by norm_num [aom, aom_moa_helper, bucketAssignment, trivialRandom,
      nEstimators, staticPartitionBuckets, combineBuckets, rowCombine,
      bucketReduce, selectCols, listMax, listMean, List.range_succ])

/-- C2: in static non-bootstrap mode the bucket assignment cuts the
shuffled index sequence into `n_buckets` contiguous equal slices, and the
buckets form a set partition of `range n_estimators`: their concatenation
is a permutation of `range n`, so every estimator index appears in
exactly one bucket exactly once. -/
theorem static_partition_buckets_partition (n nBuckets : Nat)
    (r : RandomSource) (hr : r.WF) (hdvd : n % nBuckets = 0)
    (h2 : 2 ≤ nBuckets) (hbn : nBuckets ≤ n) :
    (staticPartitionBuckets (r.shuffle n) (n / nBuckets) nBuckets).flatten.Perm
      (List.range n) ∧
    ∀ j < n,
      (staticPartitionBuckets (r.shuffle n) (n / nBuckets) nBuckets).flatten.count j
        = 1 := by
  have hlen : (r.shuffle n).length = n := by
    rw [(hr.1 n).length_eq, List.length_range]
  have hmul : n = nBuckets * (n / nBuckets) :=
    (Nat.mul_div_cancel' (Nat.dvd_of_mod_eq_zero hdvd)).symm
  have hflat :
      (staticPartitionBuckets (r.shuffle n) (n / nBuckets) nBuckets).flatten =
        r.shuffle n := by
    unfold staticPartitionBuckets
    exact slices_flatten nBuckets (n / nBuckets) (r.shuffle n)
      (by rw [hlen]; exact hmul)
  constructor
  · rw [hflat]
    exact hr.1 n
  · intro j hj
    rw [hflat, (hr.1 n).count_eq]
    exact List.count_eq_one_of_mem (List.nodup_range n) (List.mem_range.mpr hj)

theorem static_partition_buckets_partition_witness :
    (staticPartitionBuckets (trivialRandom.shuffle 4) (4 / 2) 2).flatten.Perm
      (List.range 4) ∧
    ∀ j < 4,
      (staticPartitionBuckets (trivialRandom.shuffle 4) (4 / 2) 2).flatten.count j
        = 1 :=
  static_partition_buckets_partition 4 2 trivialRandom trivialRandom_wf
    (by decide) (by decide) (by decide)

/-- C3 counterexample: the claim says the uneven-division failure happens
exactly when `bootstrap_estimators` is false, with no divisibility
requirement when it is true; but with `n_estimators = 4`, `n_buckets = 3`
and `bootstrap_estimators = true` the static branch still raises the
uneven-bucket error, because the code checks divisibility before
branching on bootstrap. -/
theorem static_uneven_bootstrap_counterexample :
    aom [[(1:ℚ),2,3,4]] 3 .static true trivialRandom =
      .error .unevenBucket := by
  norm_num [aom, aom_moa_helper, bucketAssignment, nEstimators]

/-- C3 (amended): in static mode the uneven-division error is raised
exactly when `n_estimators % n_buckets ≠ 0`, regardless of
`bootstrap_estimators`; when the division is even and bootstrap is true,
the call succeeds and each of the `n_buckets` buckets independently holds
`n_estimators / n_buckets` distinct column indices drawn without
replacement from the full estimator set. -/
theorem static_uneven_iff (mode : Mode) (scores : List (List ℚ))
    (nBuckets : Nat) (bootstrap : Bool) (r : RandomSource) (hr : r.WF)
    (h2 : 2 ≤ nBuckets) (hbn : nBuckets ≤ nEstimators scores) :
    (aom_moa_helper mode scores nBuckets .static bootstrap r =
        .error .unevenBucket ↔ nEstimators scores % nBuckets ≠ 0) ∧
    (nEstimators scores % nBuckets = 0 →
      ∃ out, aom_moa_helper mode scores nBuckets .static true r = .ok out ∧
        ∀ b ∈ staticBootstrapBuckets r (nEstimators scores)
            (nEstimators scores / nBuckets) nBuckets,
          b.length = nEstimators scores / nBuckets ∧ b.Nodup ∧
          ∀ j ∈ b, j < nEstimators scores) := by
  have hval : 2 ≤ nBuckets ∧ nBuckets ≤ nEstimators scores := ⟨h2, hbn⟩
  by_cases hmod : nEstimators scores % nBuckets = 0
  · have hok : ∀ bs : Bool, aom_moa_helper mode scores nBuckets .static bs r =
        .ok (combineBuckets mode scores
          (if bs then
            staticBootstrapBuckets r (nEstimators scores)
              (nEstimators scores / nBuckets) nBuckets
          else
            staticPartitionBuckets (r.shuffle (nEstimators scores))
              (nEstimators scores / nBuckets) nBuckets)) := by
      intro bs
      simp only [aom_moa_helper, bucketAssignment]
      rw [if_pos hval, if_neg (not_not_intro hmod)]
      cases bs <;> simp
    refine ⟨⟨fun herr => ?_, fun hm => absurd hmod hm⟩, fun _ => ?_⟩
    · rw [hok bootstrap] at herr
      cases herr
    · refine ⟨_, hok true, ?_⟩
      intro b hb
      have hb2 : b ∈ List.replicate nBuckets
          (r.sampleWOR (nEstimators scores) (nEstimators scores / nBuckets)) := by
        rw [← staticBootstrapBuckets_eq_replicate r (nEstimators scores)
          (nEstimators scores / nBuckets) nBuckets]
        exact hb
      have hbe := List.eq_of_mem_replicate hb2
      subst hbe
      have hkn : nEstimators scores / nBuckets ≤ nEstimators scores :=
        Nat.div_le_self _ _
      exact hr.2.1 _ _ hkn
  · have herr : aom_moa_helper mode scores nBuckets .static bootstrap r =
        .error .unevenBucket := by
      simp only [aom_moa_helper, bucketAssignment]
      rw [if_pos hval, if_pos hmod]
    exact ⟨⟨fun _ => hmod, fun _ => herr⟩, fun hm => absurd hm hmod⟩

theorem static_uneven_iff_witness :
    ((aom_moa_helper .AOM [[(1:ℚ),2,3,4]] 2 .static false trivialRandom =
        .error .unevenBucket ↔ nEstimators [[(1:ℚ),2,3,4]] % 2 ≠ 0) ∧
    (nEstimators [[(1:ℚ),2,3,4]] % 2 = 0 →
      ∃ out, aom_moa_helper .AOM [[(1:ℚ),2,3,4]] 2 .static true trivialRandom =
          .ok out ∧
        ∀ b ∈ staticBootstrapBuckets trivialRandom (nEstimators [[(1:ℚ),2,3,4]])
            (nEstimators [[(1:ℚ),2,3,4]] / 2) 2,
          b.length = nEstimators [[(1:ℚ),2,3,4]] / 2 ∧ b.Nodup ∧
          ∀ j ∈ b, j < nEstimators [[(1:ℚ),2,3,4]])) :=
  static_uneven_iff .AOM [[(1:ℚ),2,3,4]] 2 false trivialRandom
    trivialRandom_wf (by decide) (by decide)

/-- C7: in dynamic mode the per-bucket size draw rebuilds the generator
from the same fixed seed on every bucket iteration, so every bucket uses
the single draw `sz` from `randint(2, n_estimators // 2)` (hence
`2 ≤ sz < n_estimators / 2`), and each bucket then consists of `sz`
distinct column indices drawn without replacement from the full set: the
resulting assignment is the same sampled bucket repeated `n_buckets`
times. -/
theorem dynamic_bucket_sizes (mode : Mode) (scores : List (List ℚ))
    (nBuckets : Nat) (bootstrap : Bool) (r : RandomSource) (out : List ℚ)
    (hr : r.WF)
    (hok : aom_moa_helper mode scores nBuckets .dynamic bootstrap r = .ok out) :
    ∃ sz, r.randint 2 (nEstimators scores / 2) = some sz ∧
      2 ≤ sz ∧ sz < nEstimators scores / 2 ∧
      (r.sampleWOR (nEstimators scores) sz).length = sz ∧
      (r.sampleWOR (nEstimators scores) sz).Nodup ∧
      (∀ j ∈ r.sampleWOR (nEstimators scores) sz, j < nEstimators scores) ∧
      out = combineBuckets mode scores
        (List.replicate nBuckets (r.sampleWOR (nEstimators scores) sz)) := by
  obtain ⟨⟨h2, hbn⟩, B, hB, hout⟩ :=
    helper_ok_elim mode scores nBuckets .dynamic bootstrap r out hok
  simp only [bucketAssignment] at hB
  cases hd : dynamicBuckets r (nEstimators scores) nBuckets with
  | none => rw [hd] at hB; cases hB
  | some B' =>
    rw [hd] at hB
    simp only at hB
    cases hB
    obtain ⟨sz, hsz, hrep⟩ := dynamicBuckets_some r _ _ _ (by omega) hd
    obtain ⟨hsz2, hszhi⟩ := hr.2.2.2 _ _ _ hsz
    have hszn : sz ≤ nEstimators scores := by
      have := Nat.div_le_self (nEstimators scores) 2
      omega
    obtain ⟨hl, hnd, hm⟩ := hr.2.1 _ _ hszn
    exact ⟨sz, hsz, hsz2, hszhi, hl, hnd, hm, by rw [hout, hrep]⟩

theorem dynamic_bucket_sizes_witness :
    ∃ sz, trivialRandom.randint 2 (nEstimators [[(1:ℚ),2,3,4,5,6]] / 2) =
        some sz ∧
      2 ≤ sz ∧ sz < nEstimators [[(1:ℚ),2,3,4,5,6]] / 2 ∧
      (trivialRandom.sampleWOR (nEstimators [[(1:ℚ),2,3,4,5,6]]) sz).length = sz ∧
      (trivialRandom.sampleWOR (nEstimators [[(1:ℚ),2,3,4,5,6]]) sz).Nodup ∧
      (∀ j ∈ trivialRandom.sampleWOR (nEstimators [[(1:ℚ),2,3,4,5,6]]) sz,
        j < nEstimators [[(1:ℚ),2,3,4,5,6]]) ∧
      [(2:ℚ)] = combineBuckets .AOM [[(1:ℚ),2,3,4,5,6]]
        (List.replicate 2
          (trivialRandom.sampleWOR (nEstimators [[(1:ℚ),2,3,4,5,6]]) sz)) :=
  dynamic_bucket_sizes .AOM [[(1:ℚ),2,3,4,5,6]] 2 false trivialRandom [2]
    trivialRandom_wf
    (by norm_num [aom_moa_helper, bucketAssignment, dynamicBuckets,
      trivialRandom, nEstimators, combineBuckets, rowCombine, bucketReduce,
      selectCols, listMax, listMean, List.range_succ])

/-- C9: with an integer seed, static bootstrap mode re-invokes the
without-replacement sampler with the identical seed on every bucket
iteration, so all `n_buckets` buckets are the very same sampled column
set; consequently every bucket column of the intermediate score matrix is
identical, `aom` equals the per-row maximum over the single repeated
bucket and `moa` equals the per-row mean over it. -/
theorem static_bootstrap_identical_buckets (scores : List (List ℚ))
    (nBuckets : Nat) (r : RandomSource) (outA outM : List ℚ)
    (hA : aom scores nBuckets .static true r = .ok outA)
    (hM : moa scores nBuckets .static true r = .ok outM) :
    staticBootstrapBuckets r (nEstimators scores)
        (nEstimators scores / nBuckets) nBuckets =
      List.replicate nBuckets
        (r.sampleWOR (nEstimators scores) (nEstimators scores / nBuckets)) ∧
    outA = scores.map (fun row =>
      listMax (selectCols row
        (r.sampleWOR (nEstimators scores) (nEstimators scores / nBuckets)))) ∧
    outM = scores.map (fun row =>
      listMean (selectCols row
        (r.sampleWOR (nEstimators scores) (nEstimators scores / nBuckets)))) := by
  obtain ⟨⟨h2, hbn⟩, BA, hBA, houtA⟩ :=
    helper_ok_elim .AOM scores nBuckets .static true r outA hA
  obtain ⟨_, BM, hBM, houtM⟩ :=
    helper_ok_elim .MOA scores nBuckets .static true r outM hM
  have hmod : nEstimators scores % nBuckets = 0 := by
    by_contra hmod
    simp only [bucketAssignment] at hBA
    rw [if_pos hmod] at hBA
    cases hBA
  have hba : bucketAssignment scores nBuckets .static true r =
      .ok (staticBootstrapBuckets r (nEstimators scores)
        (nEstimators scores / nBuckets) nBuckets) := by
    simp only [bucketAssignment]
    rw [if_neg (not_not_intro hmod)]
    simp
  have hBAe : BA = staticBootstrapBuckets r (nEstimators scores)
      (nEstimators scores / nBuckets) nBuckets := by
    rw [hba] at hBA
    exact (Except.ok.inj hBA).symm
  have hBMe : BM = staticBootstrapBuckets r (nEstimators scores)
      (nEstimators scores / nBuckets) nBuckets := by
    rw [hba] at hBM
    exact (Except.ok.inj hBM).symm
  refine ⟨staticBootstrapBuckets_eq_replicate r _ _ _, ?_, ?_⟩
  · rw [houtA, hBAe, staticBootstrapBuckets_eq_replicate,
      combineBuckets_replicate .AOM scores nBuckets _ (by omega)]
    rfl
  · rw [houtM, hBMe, staticBootstrapBuckets_eq_replicate,
      combineBuckets_replicate .MOA scores nBuckets _ (by omega)]
    rfl

theorem static_bootstrap_identical_buckets_witness :
    staticBootstrapBuckets trivialRandom (nEstimators [[(1:ℚ),2,3,4]])
        (nEstimators [[(1:ℚ),2,3,4]] / 2) 2 =
      List.replicate 2
        (trivialRandom.sampleWOR (nEstimators [[(1:ℚ),2,3,4]])
          (nEstimators [[(1:ℚ),2,3,4]] / 2)) ∧
    [(2:ℚ)] = [[(1:ℚ),2,3,4]].map (fun row =>
      listMax (selectCols row
        (trivialRandom.sampleWOR (nEstimators [[(1:ℚ),2,3,4]])
          (nEstimators [[(1:ℚ),2,3,4]] / 2)))) ∧
    [(3:ℚ)/2] = [[(1:ℚ),2,3,4]].map (fun row =>
      listMean (selectCols row
        (trivialRandom.sampleWOR (nEstimators [[(1:ℚ),2,3,4]])
          (nEstimators [[(1:ℚ),2,3,4]] / 2)))) :=
  static_bootstrap_identical_buckets [[(1:ℚ),2,3,4]] 2 trivialRandom
    [2] [(3:ℚ)/2]
    (by norm_num [aom, aom_moa_helper, bucketAssignment, trivialRandom,
      nEstimators, staticBootstrapBuckets, combineBuckets, rowCombine,
      bucketReduce, selectCols, listMax, listMean, List.range_succ])
    (by norm_num [moa, aom_moa_helper, bucketAssignment, trivialRandom,
      nEstimators, staticBootstrapBuckets, combineBuckets, rowCombine,
      bucketReduce, selectCols, listMax, listMean, List.range_succ])

/-- C10: in dynamic mode, whenever `n_estimators ≤ 5` (so that
`n_estimators // 2 ≤ 2` and the integer range `[2, n_estimators // 2)` is
empty) the per-bucket size draw raises numpy's empty-range error before
any bucket is reduced, even though the `2 ≤ n_buckets ≤ n_estimators`
validation passes; hence dynamic mode can only succeed when
`n_estimators ≥ 6`. -/
theorem dynamic_needs_six_estimators (mode : Mode) (scores : List (List ℚ))
    (nBuckets : Nat) (bootstrap : Bool) (r : RandomSource) (hr : r.WF)
    (h2 : 2 ≤ nBuckets) (hbn : nBuckets ≤ nEstimators scores)
    (hn : nEstimators scores ≤ 5) :
    aom_moa_helper mode scores nBuckets .dynamic bootstrap r =
      .error .emptyRandintRange := by
  have hnone : r.randint 2 (nEstimators scores / 2) = none := by
    have hiff := hr.2.2.1 2 (nEstimators scores / 2)
    have hlt : ¬(2 < nEstimators scores / 2) := by omega
    cases hc : r.randint 2 (nEstimators scores / 2) with
    | none => rfl
    | some v =>
      exfalso
      apply hlt
      apply hiff.mp
      rw [hc]
      rfl
  simp only [aom_moa_helper, bucketAssignment]
  rw [if_pos ⟨h2, hbn⟩]
  rw [dynamicBuckets_none r _ hnone nBuckets (by omega)]

theorem dynamic_needs_six_estimators_witness :
    aom_moa_helper .AOM [[(1:ℚ),2,3,4]] 2 .dynamic false trivialRandom =
      .error .emptyRandintRange :=
  dynamic_needs_six_estimators .AOM [[(1:ℚ),2,3,4]] 2 false trivialRandom
    trivialRandom_wf (by decide) (by decide) (by decide)

/-- C4: whenever an AOM/MOA call succeeds — for every method, bootstrap
flag and well-formed random source — each combined score is bounded by
the row's extremes: `min(scores[i,:]) ≤ out[i] ≤ max(scores[i,:])`. -/
theorem aom_moa_bounded (mode : Mode) (scores : List (List ℚ)) (nBuckets : Nat)
    (method : Method) (bootstrap : Bool) (r : RandomSource) (out : List ℚ)
    (i : Nat) (hr : r.WF) (hwf : MatrixWF scores)
    (hok : aom_moa_helper mode scores nBuckets method bootstrap r = .ok out)
    (hi : i < scores.length) :
    listMin (scores.getD i []) ≤ out.getD i 0 ∧
      out.getD i 0 ≤ listMax (scores.getD i []) := by
  obtain ⟨⟨h2, hbn⟩, B, hB, hout⟩ :=
    helper_ok_elim mode scores nBuckets method bootstrap r out hok
  obtain ⟨hBne, hBwf⟩ :=
    bucketAssignment_wf scores nBuckets method bootstrap r B hr h2 hbn hB
  have hrowlen : (scores.getD i []).length = nEstimators scores :=
    hwf.2.2 _ (getD_mem_of_lt scores [] i hi)
  have hgout : out.getD i 0 = rowCombine mode (scores.getD i []) B := by
    rw [hout, combineBuckets]
    rw [List.getD_eq_getElem _ _ (by rw [List.length_map]; exact hi)]
    rw [List.getElem_map, ← List.getD_eq_getElem scores [] hi]
  rw [hgout]
  apply rowCombine_bounds mode _ B hBne
  intro b hb
  obtain ⟨hbne, hjlt⟩ := hBwf b hb
  refine ⟨hbne, fun j hj => ?_⟩
  rw [hrowlen]
  exact hjlt j hj

theorem aom_moa_bounded_witness :
    listMin ([[(1:ℚ),2,3,4]].getD 0 []) ≤ [(3:ℚ)].getD 0 0 ∧
      [(3:ℚ)].getD 0 0 ≤ listMax ([[(1:ℚ),2,3,4]].getD 0 []) :=
  aom_moa_bounded .AOM [[(1:ℚ),2,3,4]] 2 .static false trivialRandom [3] 0
    trivialRandom_wf (by norm_num [MatrixWF, nEstimators])
    (by norm_num [aom_moa_helper, bucketAssignment, trivialRandom,
      nEstimators, staticPartitionBuckets, combineBuckets, rowCombine,
      bucketReduce, selectCols, listMax, listMean, List.range_succ])
    (by norm_num)

/-- C5: `average` with weights returns, per row, the weighted sum of the
row's scores divided by the sum of the weights; without weights it is the
row-wise mean; and on scores `[[1,3]]` with weights `[[1,3]]` it returns
`[5/2]`. -/
theorem average_weighted_rowwise (scores : List (List ℚ)) (w : NpArray)
    (out : List ℚ) (i : Nat)
    (hok : average scores (some w) = .ok out) (hi : i < scores.length)
    (hlen : (scores.getD i []).length = w.data.length) :
    out.getD i 0 =
      (∑ j ∈ Finset.range w.data.length,
        (scores.getD i []).getD j 0 * w.data.getD j 0) / w.data.sum ∧
    average scores none = .ok (scores.map fun row => listMean row) ∧
    average [[(1:ℚ),3]] (some ⟨[1,2],[1,3]⟩) = .ok [(5:ℚ)/2] := by
  refine ⟨?_, rfl, by norm_num [average, nEstimators]⟩
  simp only [average] at hok
  split at hok
  · cases hok
  · cases hok
    rw [List.getD_eq_getElem _ _ (by rw [List.length_map]; exact hi)]
    rw [List.getElem_map, ← List.getD_eq_getElem scores [] hi]
    rw [zipWith_mul_sum _ _ hlen]

theorem average_weighted_rowwise_witness :
    [(5:ℚ)/2].getD 0 0 =
      (∑ j ∈ Finset.range (NpArray.mk [1,2] [(1:ℚ),3]).data.length,
        ([[(1:ℚ),3]].getD 0 []).getD j 0 *
          (NpArray.mk [1,2] [(1:ℚ),3]).data.getD j 0) /
        (NpArray.mk [1,2] [(1:ℚ),3]).data.sum ∧
    average [[(1:ℚ),3]] none = .ok ([[(1:ℚ),3]].map fun row => listMean row) ∧
    average [[(1:ℚ),3]] (some ⟨[1,2],[1,3]⟩) = .ok [(5:ℚ)/2] :=
  average_weighted_rowwise [[(1:ℚ),3]] ⟨[1,2],[1,3]⟩ [(5:ℚ)/2] 0
    (by norm_num [average, nEstimators]) (by norm_num) (by norm_num)

/-- C8 counterexample: the claim says `average` accepts a 1-D weight
vector of length `n_estimators` and fails exactly when the length differs
from the estimator dimension; but the code compares the full numpy shape
against `(1, n_estimators)`, so a genuinely 1-D array of shape `(2,)`
whose length equals the estimator dimension 2 is still rejected with the
shape-mismatch error. -/
theorem average_weights_shape_counterexample :
    (NpArray.mk [2] [(1:ℚ),3]).data.length = nEstimators [[(1:ℚ),3]] ∧
    average [[(1:ℚ),3]] (some (NpArray.mk [2] [(1:ℚ),3])) =
      .error (.shapeMismatch [1, 2] [2]) := by
  constructor
  · norm_num [nEstimators]
  · norm_num [average, nEstimators]

/-- C8 (amended): `average` requires the estimator weights as a 2-D row
array of shape `(1, n_estimators)` and raises the shape-mismatch error —
naming the expected shape `(1, n_estimators)` and the received shape —
exactly when the supplied shape differs from `(1, n_estimators)`; in
particular a 1-D length-`n_estimators` vector is rejected. -/
theorem average_shape_check (scores : List (List ℚ)) (w : NpArray) :
    average scores (some w) =
        .error (.shapeMismatch [1, nEstimators scores] w.shape) ↔
      w.shape ≠ [1, nEstimators scores] := by
  simp only [average]
  split
  · next h => exact ⟨fun _ => h, fun _ => rfl⟩
  · next h =>
    constructor
    · intro hc
      cases hc
    · intro hne
      exact absurd hne h

/-- C6: `majority_vote` returns per sample the label maximizing the sum
of the weights of the estimators that voted for it — the weighted mode —
with ties broken deterministically by the smallest label value (the scan
runs over the sorted distinct labels and replaces the incumbent only on a
strictly greater weighted count); on `[[0,0,1],[1,1,0]]` with uniform
weights the output is `[0, 1]`. -/
theorem majority_vote_weighted_mode (scores : List (List ℚ)) (w out : List ℚ)
    (i : Nat) (hw : ∀ x ∈ w, 0 < x)
    (hok : majority_vote scores (some w) = .ok out)
    (hwf : MatrixWF scores) (hi : i < scores.length) :
    (out.getD i 0 ∈ scores.getD i []) ∧
    (∀ lab ∈ scores.getD i [],
      weightedCount (scores.getD i []) w lab ≤
        weightedCount (scores.getD i []) w (out.getD i 0)) ∧
    (∀ lab ∈ scores.getD i [],
      weightedCount (scores.getD i []) w lab =
        weightedCount (scores.getD i []) w (out.getD i 0) →
      out.getD i 0 ≤ lab) ∧
    majority_vote [[(0:ℚ),0,1],[1,1,0]] none = .ok [0, 1] := by
  have hex : majority_vote [[(0:ℚ),0,1],[1,1,0]] none = .ok [0, 1] := by
    norm_num [majority_vote, nEstimators, weightedModeRow, weightedCount,
      modeStep, List.insertionSort, List.orderedInsert, List.dedup,
      List.pwFilter, List.zip, List.zipWith, List.replicate, List.filter]
  simp only [majority_vote] at hok
  split at hok
  · cases hok
  · next hlw =>
    cases hok
    have hrowmem : scores.getD i [] ∈ scores := getD_mem_of_lt scores [] i hi
    have hrowlen : (scores.getD i []).length = nEstimators scores :=
      hwf.2.2 _ hrowmem
    have hone := hwf.2.1
    have hrowne : scores.getD i [] ≠ [] := by
      intro hc
      rw [hc] at hrowlen
      simp only [List.length_nil] at hrowlen
      omega
    have hlen : w.length = (scores.getD i []).length := by
      rw [hrowlen]
      exact not_not.mp hlw
    have hgout : (scores.map fun row => weightedModeRow row w).getD i 0 =
        weightedModeRow (scores.getD i []) w := by
      rw [List.getD_eq_getElem _ _ (by rw [List.length_map]; exact hi),
        List.getElem_map, ← List.getD_eq_getElem scores [] hi]
    rw [hgout]
    obtain ⟨hmem, hmax, htie⟩ := weightedModeRow_spec _ w hrowne hlen hw
    exact ⟨hmem, hmax, htie, hex⟩

theorem majority_vote_weighted_mode_witness :
    ([(0:ℚ),1].getD 0 0 ∈ [[(0:ℚ),0,1],[1,1,0]].getD 0 []) ∧
    (∀ lab ∈ [[(0:ℚ),0,1],[1,1,0]].getD 0 [],
      weightedCount ([[(0:ℚ),0,1],[1,1,0]].getD 0 []) [1,1,1] lab ≤
        weightedCount ([[(0:ℚ),0,1],[1,1,0]].getD 0 [])
          [1,1,1] ([(0:ℚ),1].getD 0 0)) ∧
    (∀ lab ∈ [[(0:ℚ),0,1],[1,1,0]].getD 0 [],
      weightedCount ([[(0:ℚ),0,1],[1,1,0]].getD 0 []) [1,1,1] lab =
        weightedCount ([[(0:ℚ),0,1],[1,1,0]].getD 0 [])
          [1,1,1] ([(0:ℚ),1].getD 0 0) →
      [(0:ℚ),1].getD 0 0 ≤ lab) ∧
    majority_vote [[(0:ℚ),0,1],[1,1,0]] none = .ok [0, 1] :=
  majority_vote_weighted_mode [[(0:ℚ),0,1],[1,1,0]] [1,1,1] [0,1] 0
    (by norm_num)
    (by norm_num [majority_vote, nEstimators, weightedModeRow, weightedCount,
      modeStep, List.insertionSort, List.orderedInsert, List.dedup,
      List.pwFilter, List.zip, List.zipWith, List.filter])
    (by
      refine ⟨by simp, by norm_num [nEstimators], ?_⟩
      intro row hrow
      simp only [List.mem_cons, List.not_mem_nil, or_false] at hrow
      rcases hrow with h | h <;> subst h <;> norm_num [nEstimators])
    (by norm_num)

end ScoreComb
